import Mathlib

/-!
# Verification of the logistic-map visualization script

Shallow embedding of the numeric core of `src/visualizations.py`.
Numeric values are modelled as exact rationals (`ℚ`): the script's
floating-point arithmetic is idealized as exact field arithmetic, which is
the reading the specification itself uses.  NumPy arrays are modelled as
`List ℚ`, with elementwise (broadcast) operations as `List.zipWith`.
The transcendental `np.log` has no rational counterpart, so every
definition that needs it takes the log function as an explicit parameter
`L : ℚ → ℚ`; all structural claims about the Lyapunov computation are
proved uniformly in `L`.  Rendering (matplotlib) is out of scope per the
spec; of the side-effecting code only the `savefig` file names are
modelled, as the `String` values the script passes to `savefig`.
-/

set_option autoImplicit false

namespace LogisticMap

/-- Source lines 15-16: `def logistic_map(x, r): return r * x * (1 - x)`,
scalar case. -/
def logistic_map (x r : ℚ) : ℚ :=
  r * x * (1 - x)

/-- `logistic_map` applied to NumPy arrays of matching shape: elementwise
application, modelled as `zipWith` over the two lists. -/
def logistic_map_vec (xs rs : List ℚ) : List ℚ :=
  List.zipWith (fun x r => logistic_map x r) xs rs

/-- The mathematical orbit of the recurrence: `orbit r x0 n` is the n-th
iterate of `x ↦ logistic_map x r` starting from `x0`. -/
def orbit (r x0 : ℚ) : ℕ → ℚ
  | 0 => x0
  | n + 1 => logistic_map (orbit r x0 n) r

/-- Source lines 65-69 (`plot_time_series`): the loop
`x_vals = [x0]; for _ in range(iterations): x = logistic_map(x, r); x_vals.append(x)`.
Returns the pair (accumulated list `x_vals`, current value `x`) after `n`
loop iterations. -/
def timeSeriesLoop (r x0 : ℚ) : ℕ → List ℚ × ℚ
  | 0 => ([x0], x0)
  | n + 1 =>
      let p := timeSeriesLoop r x0 n
      let x2 := logistic_map p.2 r
      (p.1 ++ [x2], x2)

/-- The list `x_vals` built by `plot_time_series` after `iterations`
iterations of its loop. -/
def x_vals (r x0 : ℚ) (iterations : ℕ) : List ℚ :=
  (timeSeriesLoop r x0 iterations).1

/-- Source line 115/119 (`plot_bifurcation`): one vectorized update
`x = logistic_map(x, r_values)` of the whole state array. -/
def bifStep (r_values xs : List ℚ) : List ℚ :=
  List.zipWith (fun x r => logistic_map x r) xs r_values

/-- Source lines 114-115: the burn-in loop
`for i in range(iterations - last): x = logistic_map(x, r_values)`,
running `n` iterations from state `xs`. -/
def bifBurn (r_values : List ℚ) (xs : List ℚ) : ℕ → List ℚ
  | 0 => xs
  | n + 1 => bifBurn r_values (bifStep r_values xs) n

/-- Source lines 118-121: the sampling loop
`for i in range(last): x = logistic_map(x, r_values); all_r.extend(r_values); all_x.extend(x)`.
Returns (final state, `all_r`, `all_x`); the extended entries of the
earlier iterations come first, as in the script. -/
def bifSample (r_values : List ℚ) (xs : List ℚ) : ℕ → List ℚ × List ℚ × List ℚ
  | 0 => (xs, [], [])
  | n + 1 =>
      let xs2 := bifStep r_values xs
      let p := bifSample r_values xs2 n
      (p.1, r_values ++ p.2.1, xs2 ++ p.2.2)

/-- Source lines 106-121 (`plot_bifurcation`): the full sampling pipeline.
The script builds `r_values = np.linspace(r_min, r_max, r_steps)`; the
sampling claims quantify over the entries of that array, so the embedding
takes the array itself as the argument.  The initial state is
`x = 0.1 * np.ones(r_steps)`, i.e. `0.1` replicated to the length of
`r_values`.  Burn-in runs `iterations - last` steps (`range(iterations - last)`
iterates zero times when the difference is not positive, which truncated
`ℕ` subtraction models exactly); then `last` sampling steps collect
`(all_r, all_x)`. -/
def plot_bifurcation_samples (r_values : List ℚ) (iterations last : ℕ) :
    List ℚ × List ℚ :=
  let x0 := List.replicate r_values.length (1/10)
  let xb := bifBurn r_values x0 (iterations - last)
  let p := bifSample r_values xb last
  (p.2.1, p.2.2)

/-- Source lines 157-158 (`plot_lyapunov`), scalar form of one loop body:
`x = logistic_map(x, r)` followed by `lyapunov += log(abs(r * (1 - 2 * x)))`
at the updated `x`.  The log function is the explicit parameter `L`. -/
def lyapunovStep (L : ℚ → ℚ) (r : ℚ) (p : ℚ × ℚ) : ℚ × ℚ :=
  let x2 := logistic_map p.1 r
  (x2, p.2 + L (|r * (1 - 2 * x2)|))

/-- Source lines 152-158, scalar form: state starts at `x = 0.5`,
accumulator at `0`, and the loop body `lyapunovStep` runs `n` times. -/
def lyapunovLoop (L : ℚ → ℚ) (r : ℚ) : ℕ → ℚ × ℚ
  | 0 => (1/2, 0)
  | n + 1 => lyapunovStep L r (lyapunovLoop L r n)

/-- Source line 160: the final exponent for one `r` is the accumulated sum
divided by the iteration count. -/
def lyapunov_exponent (L : ℚ → ℚ) (r : ℚ) (iterations : ℕ) : ℚ :=
  (lyapunovLoop L r iterations).2 / (iterations : ℚ)

/-- Source lines 152-158, vectorized exactly as the script runs it:
`x = 0.5 * np.ones(r_steps)`, `lyapunov = np.zeros(r_steps)`, and in each
iteration the whole arrays are updated elementwise:
`x = logistic_map(x, r_values)` then
`lyapunov += np.log(np.abs(r_values * (1 - 2 * x)))`. -/
def lyapunovVecLoop (L : ℚ → ℚ) (r_values : List ℚ) : ℕ → List ℚ × List ℚ
  | 0 => (List.replicate r_values.length (1/2), List.replicate r_values.length 0)
  | n + 1 =>
      let p := lyapunovVecLoop L r_values n
      let x2 := List.zipWith (fun x r => logistic_map x r) p.1 r_values
      let terms := List.zipWith (fun r x => L (|r * (1 - 2 * x)|)) r_values x2
      (x2, List.zipWith (fun s t => s + t) p.2 terms)

/-- Source lines 156-160 (`plot_lyapunov`): the array of exponents, one per
entry of `r_values`, after `iterations` loop iterations and the final
elementwise division `lyapunov /= iterations`. -/
def plot_lyapunov_exponents (L : ℚ → ℚ) (r_values : List ℚ) (iterations : ℕ) :
    List ℚ :=
  ((lyapunovVecLoop L r_values iterations).2).map (fun s => s / (iterations : ℚ))

/-- Python fixed-point formatting `f"{q:.3f}"`, idealized to exact rational
input: round to the nearest thousandth and print with exactly three
decimal digits.  (CPython formats the binary double nearest to `q`; the
embedding formats `q` itself.) -/
def format3 (q : ℚ) : String :=
  let n : ℤ := round (q * 1000)
  let sign := if n < 0 then "-" else ""
  let m := n.natAbs
  let ip := m / 1000
  let fp := m % 1000
  let fpStr := toString fp
  sign ++ toString ip ++ "." ++ String.mk (List.replicate (3 - fpStr.length) '0') ++ fpStr

/-- Source line 58: `plt.savefig(f'cobweb_r_{r:.3f}.png', ...)` — the file
name `plot_cobweb` writes when `save` is requested. -/
def plot_cobweb_filename (r : ℚ) : String :=
  "cobweb_r_" ++ format3 r ++ ".png"

/-- Source line 99: `plt.savefig(f'timeseries_r_{r:.3f}.png', ...)`. -/
def plot_time_series_filename (r : ℚ) : String :=
  "timeseries_r_" ++ format3 r ++ ".png"

/-- Source line 144: `plt.savefig('bifurcation_diagram.png', ...)` — a
fixed literal, taking none of the call's parameters into account. -/
def plot_bifurcation_filename (r_min r_max : ℚ) (r_steps iterations last : ℕ) :
    String :=
  "bifurcation_diagram.png"

/-- Source line 199: `plt.savefig('lyapunov_spectrum.png', ...)` — a fixed
literal. -/
def plot_lyapunov_filename (r_min r_max : ℚ) (r_steps iterations : ℕ) : String :=
  "lyapunov_spectrum.png"

/-! ## Generic list-indexing helpers -/

lemma getD_map_of_lt {α β : Type} (f : α → β) (l : List α) (j : ℕ)
    (da : α) (db : β) (h : j < l.length) :
    (l.map f).getD j db = f (l.getD j da) := by
  have h2 : j < (l.map f).length := by simpa using h
  rw [List.getD_eq_getElem _ _ h2, List.getD_eq_getElem _ _ h, List.getElem_map]

lemma getD_zipWith_of_lt {α β γ : Type} (f : α → β → γ) (xs : List α)
    (ys : List β) (j : ℕ) (da : α) (db : β) (dc : γ)
    (hx : j < xs.length) (hy : j < ys.length) :
    (List.zipWith f xs ys).getD j dc = f (xs.getD j da) (ys.getD j db) := by
  have h2 : j < (List.zipWith f xs ys).length := by
    rw [List.length_zipWith]; omega
  rw [List.getD_eq_getElem _ _ h2, List.getD_eq_getElem _ _ hx,
    List.getD_eq_getElem _ _ hy, List.getElem_zipWith]

lemma getD_replicate_of_lt {α : Type} (a d : α) (n j : ℕ) (h : j < n) :
    (List.replicate n a).getD j d = a := by
  have h2 : j < (List.replicate n a).length := by simpa using h
  rw [List.getD_eq_getElem _ _ h2, List.getElem_replicate]

lemma getD_range_of_lt (n j : ℕ) (d : ℕ) (h : j < n) :
    (List.range n).getD j d = j := by
  have h2 : j < (List.range n).length := by simpa using h
  rw [List.getD_eq_getElem _ _ h2, List.getElem_range]

lemma mem_zipWith {α β γ : Type} {f : α → β → γ} :
    ∀ {xs : List α} {ys : List β} {c : γ}, c ∈ List.zipWith f xs ys →
      ∃ a ∈ xs, ∃ b ∈ ys, c = f a b
  | [], _, c, h => by simp [List.zipWith] at h
  | _ :: _, [], c, h => by simp [List.zipWith] at h
  | a :: xs, b :: ys, c, h => by
      rcases List.mem_cons.mp h with h0 | h1
      · exact ⟨a, List.mem_cons_self a xs, b, List.mem_cons_self b ys, h0⟩
      · rcases mem_zipWith h1 with ⟨a2, ha, b2, hb, hc⟩
        exact ⟨a2, List.mem_cons_of_mem a ha, b2, List.mem_cons_of_mem b hb, hc⟩

/-! ## Basic facts about the recurrence -/

lemma logistic_map_zero_left (r : ℚ) : logistic_map 0 r = 0 := by
  simp [logistic_map]

lemma logistic_map_zero_right (x : ℚ) : logistic_map x 0 = 0 := by
  simp [logistic_map]

/-- For `0 < r ≤ 4` and `x ∈ [0,1]`, one step of the recurrence stays in
`[0,1]`. -/
lemma logistic_map_mem_unit {r x : ℚ} (hr0 : 0 < r) (hr4 : r ≤ 4)
    (hx0 : 0 ≤ x) (hx1 : x ≤ 1) :
    0 ≤ logistic_map x r ∧ logistic_map x r ≤ 1 := by
  unfold logistic_map
  constructor
  · have h1 : (0:ℚ) ≤ 1 - x := by linarith
    exact mul_nonneg (mul_nonneg hr0.le hx0) h1
  · nlinarith [sq_nonneg (2 * x - 1), mul_nonneg hx0 (by linarith : (0:ℚ) ≤ 1 - x)]

/-! ## Characterization of the time-series loop -/

lemma timeSeriesLoop_eq (r x0 : ℚ) : ∀ n : ℕ,
    timeSeriesLoop r x0 n = ((List.range (n + 1)).map (orbit r x0), orbit r x0 n)
  | 0 => by simp [timeSeriesLoop, orbit, List.range_succ]
  | n + 1 => by
      rw [timeSeriesLoop, timeSeriesLoop_eq r x0 n]
      simp only [orbit]
      rw [List.range_succ (n + 1)]
      simp [orbit]

lemma x_vals_eq (r x0 : ℚ) (n : ℕ) :
    x_vals r x0 n = (List.range (n + 1)).map (orbit r x0) := by
  rw [x_vals, timeSeriesLoop_eq]

/-! ## Characterization of the scalar Lyapunov loop -/

lemma lyapunovLoop_fst (L : ℚ → ℚ) (r : ℚ) : ∀ n : ℕ,
    (lyapunovLoop L r n).1 = orbit r (1/2) n
  | 0 => rfl
  | n + 1 => by
      rw [lyapunovLoop, lyapunovStep, orbit, ← lyapunovLoop_fst L r n]

lemma lyapunovLoop_snd (L : ℚ → ℚ) (r : ℚ) : ∀ n : ℕ,
    (lyapunovLoop L r n).2 =
      ∑ i in Finset.range n, L (|r * (1 - 2 * orbit r (1/2) (i + 1))|)
  | 0 => by simp [lyapunovLoop]
  | n + 1 => by
      rw [lyapunovLoop, lyapunovStep, Finset.sum_range_succ,
        ← lyapunovLoop_snd L r n, lyapunovLoop_fst L r n]
      simp [orbit]

/-! ## The vectorized Lyapunov loop agrees elementwise with the scalar one -/

lemma lyapunovVecLoop_length (L : ℚ → ℚ) (r_values : List ℚ) : ∀ n : ℕ,
    (lyapunovVecLoop L r_values n).1.length = r_values.length ∧
      (lyapunovVecLoop L r_values n).2.length = r_values.length
  | 0 => by simp [lyapunovVecLoop]
  | n + 1 => by
      obtain ⟨h1, h2⟩ := lyapunovVecLoop_length L r_values n
      simp only [lyapunovVecLoop, List.length_zipWith, h1, h2]
      omega

lemma lyapunovVecLoop_getD (L : ℚ → ℚ) (r_values : List ℚ) (j : ℕ)
    (hj : j < r_values.length) : ∀ n : ℕ,
    (lyapunovVecLoop L r_values n).1.getD j 0 =
        (lyapunovLoop L (r_values.getD j 0) n).1 ∧
      (lyapunovVecLoop L r_values n).2.getD j 0 =
        (lyapunovLoop L (r_values.getD j 0) n).2
  | 0 => by
      simp only [lyapunovVecLoop, lyapunovLoop]
      exact ⟨getD_replicate_of_lt _ _ _ _ hj, getD_replicate_of_lt _ _ _ _ hj⟩
  | n + 1 => by
      obtain ⟨ih1, ih2⟩ := lyapunovVecLoop_getD L r_values j hj n
      obtain ⟨hl1, hl2⟩ := lyapunovVecLoop_length L r_values n
      have hx2len : (List.zipWith (fun x r => logistic_map x r)
          (lyapunovVecLoop L r_values n).1 r_values).length = r_values.length := by
        rw [List.length_zipWith, hl1, min_self]
      have htermlen : (List.zipWith (fun r x => L (|r * (1 - 2 * x)|)) r_values
          (List.zipWith (fun x r => logistic_map x r)
            (lyapunovVecLoop L r_values n).1 r_values)).length = r_values.length := by
        rw [List.length_zipWith, hx2len, min_self]
      constructor
      · show (List.zipWith (fun x r => logistic_map x r)
            (lyapunovVecLoop L r_values n).1 r_values).getD j 0 = _
        rw [getD_zipWith_of_lt _ _ _ j 0 0 0 (by omega : j < (lyapunovVecLoop L r_values n).1.length) hj]
        rw [ih1]
        rfl
      · show (List.zipWith (fun s t => s + t) (lyapunovVecLoop L r_values n).2
            (List.zipWith (fun r x => L (|r * (1 - 2 * x)|)) r_values
              (List.zipWith (fun x r => logistic_map x r)
                (lyapunovVecLoop L r_values n).1 r_values))).getD j 0 = _
        rw [getD_zipWith_of_lt _ _ _ j 0 0 0 (by omega : j < (lyapunovVecLoop L r_values n).2.length) (by omega)]
        rw [ih2]
        rw [getD_zipWith_of_lt _ _ _ j 0 0 0 hj (by omega)]
        rw [getD_zipWith_of_lt _ _ _ j 0 0 0 (by omega : j < (lyapunovVecLoop L r_values n).1.length) hj]
        rw [ih1]
        rfl

/-! ## Bifurcation loop lemmas -/

lemma bifStep_length {r_values xs : List ℚ} (h : xs.length = r_values.length) :
    (bifStep r_values xs).length = r_values.length := by
  rw [bifStep, List.length_zipWith, h, min_self]

lemma bifStep_mem {r_values xs : List ℚ}
    (hr : ∀ r ∈ r_values, 0 < r ∧ r ≤ 4) (hx : ∀ x ∈ xs, 0 ≤ x ∧ x ≤ 1) :
    ∀ a ∈ bifStep r_values xs, 0 ≤ a ∧ a ≤ 1 := by
  intro a ha
  rcases mem_zipWith ha with ⟨x, hxm, r, hrm, rfl⟩
  obtain ⟨hr0, hr4⟩ := hr r hrm
  obtain ⟨hx0, hx1⟩ := hx x hxm
  exact logistic_map_mem_unit hr0 hr4 hx0 hx1

lemma bifBurn_length {r_values : List ℚ} : ∀ (n : ℕ) (xs : List ℚ),
    xs.length = r_values.length → (bifBurn r_values xs n).length = r_values.length
  | 0, xs, h => h
  | n + 1, xs, h => by
      rw [bifBurn]
      exact bifBurn_length n (bifStep r_values xs) (bifStep_length h)

lemma bifBurn_mem {r_values : List ℚ} (hr : ∀ r ∈ r_values, 0 < r ∧ r ≤ 4) :
    ∀ (n : ℕ) (xs : List ℚ), (∀ x ∈ xs, 0 ≤ x ∧ x ≤ 1) →
      ∀ a ∈ bifBurn r_values xs n, 0 ≤ a ∧ a ≤ 1
  | 0, xs, hx => hx
  | n + 1, xs, hx => by
      rw [bifBurn]
      exact bifBurn_mem hr n (bifStep r_values xs) (bifStep_mem hr hx)

lemma bifBurn_eq_iterate (r_values : List ℚ) : ∀ (n : ℕ) (xs : List ℚ),
    bifBurn r_values xs n = (bifStep r_values)^[n] xs
  | 0, xs => rfl
  | n + 1, xs => by
      rw [bifBurn, bifBurn_eq_iterate r_values n, Function.iterate_succ_apply]

lemma bifSample_fst_length {r_values : List ℚ} : ∀ (n : ℕ) (xs : List ℚ),
    xs.length = r_values.length →
      ((bifSample r_values xs n).2.1).length = r_values.length * n
  | 0, xs, _ => by simp [bifSample]
  | n + 1, xs, h => by
      rw [bifSample]
      simp only [List.length_append]
      rw [bifSample_fst_length n (bifStep r_values xs) (bifStep_length h)]
      ring

lemma bifSample_snd_length {r_values : List ℚ} : ∀ (n : ℕ) (xs : List ℚ),
    xs.length = r_values.length →
      ((bifSample r_values xs n).2.2).length = r_values.length * n
  | 0, xs, _ => by simp [bifSample]
  | n + 1, xs, h => by
      rw [bifSample]
      simp only [List.length_append]
      rw [bifSample_snd_length n (bifStep r_values xs) (bifStep_length h),
        bifStep_length h]
      ring

lemma bifSample_snd_mem {r_values : List ℚ} (hr : ∀ r ∈ r_values, 0 < r ∧ r ≤ 4) :
    ∀ (n : ℕ) (xs : List ℚ), (∀ x ∈ xs, 0 ≤ x ∧ x ≤ 1) →
      ∀ a ∈ (bifSample r_values xs n).2.2, 0 ≤ a ∧ a ≤ 1
  | 0, xs, _ => by simp [bifSample]
  | n + 1, xs, hx => by
      rw [bifSample]
      intro a ha
      rcases List.mem_append.mp ha with h1 | h2
      · exact bifStep_mem hr hx a h1
      · exact bifSample_snd_mem hr n (bifStep r_values xs) (bifStep_mem hr hx) a h2

/-! ## Claim theorems -/

/-- C1: `logistic_map(x, r)` returns `r*x*(1-x)` for scalars, and
elementwise for arrays: every entry of the array result is the scalar
`logistic_map` of the corresponding entries (with `getD`-defaults the
identity holds at every index).  Being a pure function of its arguments,
the embedding has no side effects. -/
theorem logistic_map_contract (x r : ℚ) (xs rs : List ℚ) (j : ℕ) :
    logistic_map x r = r * x * (1 - x) ∧
      (logistic_map_vec xs rs).getD j 0 =
        logistic_map (xs.getD j 0) (rs.getD j 0) := by
  refine ⟨rfl, ?_⟩
  by_cases hx : j < xs.length
  · by_cases hr2 : j < rs.length
    · exact getD_zipWith_of_lt _ _ _ j 0 0 0 hx hr2
    · have h1 : rs.length ≤ j := by omega
      have h2 : (logistic_map_vec xs rs).length ≤ j := by
        rw [logistic_map_vec, List.length_zipWith]; omega
      rw [List.getD_eq_default _ _ h2, List.getD_eq_default _ _ h1,
        logistic_map_zero_right]
  · have h1 : xs.length ≤ j := by omega
    have h2 : (logistic_map_vec xs rs).length ≤ j := by
      rw [logistic_map_vec, List.length_zipWith]; omega
    rw [List.getD_eq_default _ _ h2, List.getD_eq_default _ _ h1,
      logistic_map_zero_left]

/-- C4: the trajectory `x_vals` built by the single-trajectory loop of
`plot_time_series` is the ordered sequence x0, x1, ..., xN: it has length
N+1, its first element is x0, and the element at position i+1 is
`logistic_map` of the element at position i. -/
theorem trajectory_spec (r x0 : ℚ) (N i : ℕ) (h : i < N) :
    (x_vals r x0 N).length = N + 1 ∧
      (x_vals r x0 N).getD 0 0 = x0 ∧
      (x_vals r x0 N).getD (i + 1) 0 =
        logistic_map ((x_vals r x0 N).getD i 0) r := by
  rw [x_vals_eq]
  refine ⟨by simp, ?_, ?_⟩
  · rw [getD_map_of_lt _ _ 0 0 0 (by simp), getD_range_of_lt _ _ _ (by omega)]
    rfl
  · rw [getD_map_of_lt _ _ (i + 1) 0 0 (by simp; omega),
      getD_range_of_lt _ _ _ (by omega),
      getD_map_of_lt _ _ i 0 0 (by simp; omega),
      getD_range_of_lt _ _ _ (by omega)]
    rfl

/-- Witness for C4 at r = 3, x0 = 1/5, N = 1, i = 0. -/
theorem trajectory_spec_witness :
    0 < 1 ∧
      ((x_vals 3 (1/5) 1).length = 1 + 1 ∧
        (x_vals 3 (1/5) 1).getD 0 0 = 1/5 ∧
        (x_vals 3 (1/5) 1).getD (0 + 1) 0 =
          logistic_map ((x_vals 3 (1/5) 1).getD 0 0) 3) :=
  ⟨by decide, trajectory_spec 3 (1/5) 1 0 (by decide)⟩

/-- C5 counterexample: at r = 0, x = 1/4 — both inside [0,1] — the map
value `logistic_map (1/4) 0 = 0` equals r/4 = 0 although x ≠ 0.5, so the
claimed "equals r/4 exactly when x = 0.5" is false as stated. -/
theorem logistic_map_quarter_counterexample :
    ((0:ℚ) ≤ 0 ∧ (0:ℚ) ≤ 1 ∧ (0:ℚ) ≤ 1/4 ∧ (1/4:ℚ) ≤ 1) ∧
      logistic_map (1/4) 0 = 0 / 4 ∧ (1/4 : ℚ) ≠ 1/2 := by
  norm_num [logistic_map]

/-- C5 amended: for r, x in [0,1], `logistic_map x r` lies in [0, r/4];
it equals r/4 at x = 0.5; and, provided r ≠ 0, it equals r/4 only at
x = 0.5 (the converse direction fails at r = 0). -/
theorem logistic_map_range_amended (r x : ℚ) (hr0 : 0 ≤ r) (hr1 : r ≤ 1)
    (hx0 : 0 ≤ x) (hx1 : x ≤ 1) :
    0 ≤ logistic_map x r ∧ logistic_map x r ≤ r / 4 ∧
      (x = 1/2 → logistic_map x r = r / 4) ∧
      (r ≠ 0 → logistic_map x r = r / 4 → x = 1/2) := by
  unfold logistic_map
  refine ⟨mul_nonneg (mul_nonneg hr0 hx0) (by linarith), ?_, ?_, ?_⟩
  · nlinarith [mul_nonneg hr0 (sq_nonneg (2 * x - 1))]
  · rintro rfl; ring
  · intro hr hEq
    have h2 : r * (x * (1 - x)) = r * (1/4) := by linear_combination hEq
    have h3 : x * (1 - x) = 1/4 := mul_left_cancel₀ hr h2
    have h4 : (x - 1/2) ^ 2 = 0 := by linear_combination (-1 : ℚ) * h3
    have h5 : x - 1/2 = 0 := sq_eq_zero_iff.mp h4
    linarith

/-- Witness for the amended C5 at r = 1, x = 1/2. -/
theorem logistic_map_range_amended_witness :
    ((0:ℚ) ≤ 1 ∧ (1:ℚ) ≤ 1 ∧ (0:ℚ) ≤ 1/2 ∧ (1/2:ℚ) ≤ 1) ∧
      (0 ≤ logistic_map (1/2) 1 ∧ logistic_map (1/2) 1 ≤ 1 / 4 ∧
        ((1/2:ℚ) = 1/2 → logistic_map (1/2) 1 = 1 / 4) ∧
        ((1:ℚ) ≠ 0 → logistic_map (1/2) 1 = 1 / 4 → (1/2:ℚ) = 1/2)) :=
  ⟨by norm_num,
    logistic_map_range_amended 1 (1/2) (by norm_num) (by norm_num)
      (by norm_num) (by norm_num)⟩

/-- C6: 0 is a fixed point of the recurrence for every r, and for r ≠ 0
the point 1 - 1/r is also fixed. -/
theorem logistic_map_fixed_points (r : ℚ) :
    logistic_map 0 r = 0 ∧
      (r ≠ 0 → logistic_map (1 - 1/r) r = 1 - 1/r) := by
  refine ⟨logistic_map_zero_left r, fun h => ?_⟩
  unfold logistic_map
  field_simp

/-- Witness for C6 at r = 2 (fixed point 1 - 1/2 = 1/2). -/
theorem logistic_map_fixed_points_witness :
    (2:ℚ) ≠ 0 ∧ logistic_map (1 - 1/2) 2 = 1 - 1/2 :=
  ⟨by norm_num, (logistic_map_fixed_points 2).2 (by norm_num)⟩

/-- C2: for every r-value in the input array (index j) and iteration
count N, the exponent computed by `plot_lyapunov` equals the sum over the
N iteration steps of the log-derivative term `L |r * (1 - 2 * x)|`
evaluated at the successive states of the iterated recurrence started at
x = 0.5, divided by N.  `L` is the (abstract) log function. -/
theorem plot_lyapunov_exponent_formula (L : ℚ → ℚ) (r_values : List ℚ)
    (N j : ℕ) (h : j < r_values.length) :
    (plot_lyapunov_exponents L r_values N).getD j 0 =
      (∑ i in Finset.range N,
          L (|r_values.getD j 0 *
              (1 - 2 * orbit (r_values.getD j 0) (1/2) (i + 1))|)) /
        (N : ℚ) := by
  obtain ⟨h1, h2⟩ := lyapunovVecLoop_length L r_values N
  rw [plot_lyapunov_exponents, getD_map_of_lt _ _ j 0 0 (by omega),
    (lyapunovVecLoop_getD L r_values j h N).2, lyapunovLoop_snd]

/-- Witness for C2 with L the identity, r_values = [3], N = 1, j = 0. -/
theorem plot_lyapunov_exponent_formula_witness :
    0 < ([3] : List ℚ).length ∧
      (plot_lyapunov_exponents (fun q => q) [3] 1).getD 0 0 =
        (∑ i in Finset.range 1,
            (fun q => q)
              (|([3] : List ℚ).getD 0 0 *
                  (1 - 2 * orbit (([3] : List ℚ).getD 0 0) (1/2) (i + 1))|)) /
          ((1 : ℕ) : ℚ) :=
  ⟨by decide, plot_lyapunov_exponent_formula (fun q => q) [3] 1 0 (by decide)⟩

/-- C3: for an r-array of length M sampled for `last` steps after burn-in,
`plot_bifurcation` collects exactly M * last entries in each of all_r and
all_x, and — given the initial state 0.1 and r-values in (0,4] — every
sampled x-coordinate lies in [0,1]. -/
theorem plot_bifurcation_sample_spec (r_values : List ℚ)
    (iterations last : ℕ) (hr : ∀ r ∈ r_values, 0 < r ∧ r ≤ 4) :
    (plot_bifurcation_samples r_values iterations last).1.length =
        r_values.length * last ∧
      (plot_bifurcation_samples r_values iterations last).2.length =
        r_values.length * last ∧
      ∀ a ∈ (plot_bifurcation_samples r_values iterations last).2,
        0 ≤ a ∧ a ≤ 1 := by
  have hlen0 : (List.replicate r_values.length ((1:ℚ)/10)).length =
      r_values.length := by simp
  have hmem0 : ∀ x ∈ List.replicate r_values.length ((1:ℚ)/10),
      0 ≤ x ∧ x ≤ 1 := by
    intro x hx
    rcases List.eq_of_mem_replicate hx with rfl
    norm_num
  have hblen := bifBurn_length (iterations - last) _ hlen0
  have hbmem := bifBurn_mem hr (iterations - last) _ hmem0
  exact ⟨bifSample_fst_length last _ hblen, bifSample_snd_length last _ hblen,
    bifSample_snd_mem hr last _ hbmem⟩

/-- Witness for C3 with r_values = [3], iterations = 2, last = 1. -/
theorem plot_bifurcation_sample_spec_witness :
    (∀ r ∈ ([3] : List ℚ), 0 < r ∧ r ≤ 4) ∧
      ((plot_bifurcation_samples [3] 2 1).1.length = ([3] : List ℚ).length * 1 ∧
        (plot_bifurcation_samples [3] 2 1).2.length = ([3] : List ℚ).length * 1 ∧
        ∀ a ∈ (plot_bifurcation_samples [3] 2 1).2, 0 ≤ a ∧ a ≤ 1) :=
  ⟨by decide, plot_bifurcation_sample_spec [3] 2 1 (by decide)⟩

/-- C7 counterexample: `plot_bifurcation` with save requested writes the
fixed name "bifurcation_diagram.png" — identical for two calls with
different numeric parameters and containing no digit at all — so the name
does not embed the numeric parameter values of the call (here, e.g.,
r_steps = 5000). -/
theorem bifurcation_filename_counterexample :
    plot_bifurcation_filename (5/2) 4 5000 2000 500 =
        plot_bifurcation_filename 3 (7/2) 10 10 5 ∧
      (plot_bifurcation_filename (5/2) 4 5000 2000 500).data.all
        (fun c => ! c.isDigit) = true :=
  ⟨rfl, by decide⟩

/-- C7 amended: the cobweb and time-series file names embed the r value of
the call (formatted to three decimals); the bifurcation and Lyapunov file
names are the fixed strings "bifurcation_diagram.png" and
"lyapunov_spectrum.png", which embed no numeric parameter (they contain no
digit). -/
theorem plot_filenames_amended (r r_min r_max : ℚ)
    (r_steps iterations last : ℕ) :
    (∃ pre post, plot_cobweb_filename r = pre ++ format3 r ++ post) ∧
      (∃ pre post, plot_time_series_filename r = pre ++ format3 r ++ post) ∧
      plot_bifurcation_filename r_min r_max r_steps iterations last =
        "bifurcation_diagram.png" ∧
      plot_lyapunov_filename r_min r_max r_steps iterations =
        "lyapunov_spectrum.png" ∧
      (plot_bifurcation_filename r_min r_max r_steps iterations last).data.all
        (fun c => ! c.isDigit) = true ∧
      (plot_lyapunov_filename r_min r_max r_steps iterations).data.all
        (fun c => ! c.isDigit) = true := by
  refine ⟨⟨"cobweb_r_", ".png", rfl⟩, ⟨"timeseries_r_", ".png", rfl⟩,
    rfl, rfl, ?_, ?_⟩
  · show ("bifurcation_diagram.png" : String).data.all
      (fun c => ! c.isDigit) = true
    decide
  · show ("lyapunov_spectrum.png" : String).data.all
      (fun c => ! c.isDigit) = true
    decide

lemma lyapunovLoop_two_fst (L : ℚ → ℚ) : ∀ n : ℕ,
    (lyapunovLoop L 2 n).1 = 1/2
  | 0 => rfl
  | n + 1 => by
      rw [lyapunovLoop, lyapunovStep, lyapunovLoop_two_fst L n]
      norm_num [logistic_map]

lemma lyapunovLoop_two_snd (L : ℚ → ℚ) : ∀ n : ℕ,
    (lyapunovLoop L 2 n).2 = (n : ℚ) * L 0
  | 0 => by simp [lyapunovLoop]
  | n + 1 => by
      rw [lyapunovLoop, lyapunovStep, lyapunovLoop_two_snd L n,
        lyapunovLoop_two_fst L n]
      norm_num [logistic_map]
      ring

/-- C8: the Lyapunov loop applies the log function to the derivative
magnitude unconditionally, with no special-casing of a zero argument: at
r = 2 the updated state is exactly 0.5, the step adds exactly `L 0` to the
accumulator, and for every N ≥ 1 the whole computed exponent equals `L 0`
— whatever value (or error) the runtime log produces at 0 propagates
untranslated out of the computation. -/
theorem lyapunov_no_zero_guard (L : ℚ → ℚ) (s : ℚ) (N : ℕ) :
    lyapunovStep L 2 (1/2, s) = (1/2, s + L 0) ∧
      (1 ≤ N → lyapunov_exponent L 2 N = L 0) := by
  constructor
  · rw [lyapunovStep]
    norm_num [logistic_map]
  · intro hN
    have hNQ : (N : ℚ) ≠ 0 := Nat.cast_ne_zero.mpr (by omega)
    rw [lyapunov_exponent, lyapunovLoop_two_snd]
    exact mul_div_cancel_left₀ (L 0) hNQ

/-- Witness for C8 with L = (· - 1), N = 3. -/
theorem lyapunov_no_zero_guard_witness :
    1 ≤ 3 ∧ lyapunov_exponent (fun q => q - 1) 2 3 = (fun q => q - 1) 0 :=
  ⟨by decide, (lyapunov_no_zero_guard (fun q => q - 1) 0 3).2 (by decide)⟩

/-- C9: in the Lyapunov loop the state is advanced first and the
log-derivative term is evaluated at the post-update state: the accumulator
after N steps is the sum of the terms at states x1..xN.  Moreover this
differs from the x0..x(N-1) convention: at L = id, r = 3, N = 1 the
accumulated value (3/2, at x1 = 3/4) is not the value at x0 = 0.5
(which is 0). -/
theorem lyapunov_terms_post_update :
    (∀ (L : ℚ → ℚ) (r : ℚ) (N : ℕ),
        (lyapunovLoop L r N).2 =
          ∑ i in Finset.range N, L (|r * (1 - 2 * orbit r (1/2) (i + 1))|)) ∧
      (lyapunovLoop (fun q => q) 3 1).2 ≠
        ∑ i in Finset.range 1, (fun q => q) (|3 * (1 - 2 * orbit 3 (1/2) i)|) := by
  refine ⟨lyapunovLoop_snd, ?_⟩
  rw [Finset.sum_range_one]
  norm_num [lyapunovLoop, lyapunovStep, orbit, logistic_map]

/-- C10: the burn-in loop of `plot_bifurcation` performs exactly
`iterations - last` applications of the vectorized recurrence (the state
fed to sampling is the (iterations - last)-fold iterate of the step, and
`range` of a non-positive count runs zero times, as truncated `ℕ`
subtraction models); when last ≥ iterations the burn-in leaves the
initial state untouched and sampling still records r_steps * last pairs
in each of all_r and all_x, without error. -/
theorem bifurcation_burnin_count (r_values : List ℚ) (iterations last : ℕ) :
    (∀ xs : List ℚ,
        bifBurn r_values xs (iterations - last) =
          (bifStep r_values)^[iterations - last] xs) ∧
      (iterations ≤ last →
        bifBurn r_values (List.replicate r_values.length (1/10))
            (iterations - last) =
          List.replicate r_values.length (1/10) ∧
        (plot_bifurcation_samples r_values iterations last).1.length =
          r_values.length * last ∧
        (plot_bifurcation_samples r_values iterations last).2.length =
          r_values.length * last) := by
  refine ⟨fun xs => bifBurn_eq_iterate r_values _ xs, fun hle => ?_⟩
  have h0 : iterations - last = 0 := Nat.sub_eq_zero_of_le hle
  have hlen0 : (List.replicate r_values.length ((1:ℚ)/10)).length =
      r_values.length := by simp
  have hblen := bifBurn_length (iterations - last) _ hlen0
  refine ⟨?_, bifSample_fst_length last _ hblen,
    bifSample_snd_length last _ hblen⟩
  rw [h0]
  rfl

/-- Witness for C10 with r_values = [3], iterations = 5, last = 7. -/
theorem bifurcation_burnin_count_witness :
    5 ≤ 7 ∧
      (bifBurn [3] (List.replicate ([3] : List ℚ).length (1/10)) (5 - 7) =
          List.replicate ([3] : List ℚ).length (1/10) ∧
        (plot_bifurcation_samples [3] 5 7).1.length =
          ([3] : List ℚ).length * 7 ∧
        (plot_bifurcation_samples [3] 5 7).2.length =
          ([3] : List ℚ).length * 7) :=
  ⟨by decide, (bifurcation_burnin_count [3] 5 7).2 (by decide)⟩

end LogisticMap
